import Mathlib

/-!
Verification development for the json-viewer position-tracking highlight and
search engine.  The TypeScript sources are shallowly embedded: buffers are
`List Char` (UTF-16 code units of the spec's Buffer type), JS numbers used as
offsets are `Int` or `Nat`, and every unbounded JS loop is modelled with
explicit fuel returning `Option` (where `none` means the fuel ran out, which
the totality theorems rule out).
-/

namespace JsonViewer

/-! ## Match Engine: `src/find/findMatches.ts` -/

/-- `FindOptions` from `findMatches.ts`. -/
structure FindOptions where
  query : List Char
  matchCase : Bool
  wholeWord : Bool
  regex : Bool
  deriving DecidableEq

/-- `FindMatch` from `findMatches.ts`: half-open `[start, stop)`.
The source field `end` is a Lean keyword, so it is named `stop` here. -/
structure FindMatch where
  start : Nat
  stop : Nat
  deriving DecidableEq

/-- Result shape of `computeFindMatches`: `{matches, error}`.  The source
field `matches` is a Lean keyword, so it is named `matchList` here. -/
structure FindResult where
  matchList : List FindMatch
  error : Option (List Char)
  deriving DecidableEq

/-- `isWordChar` from `findMatches.ts`: ASCII letter, digit or underscore. -/
def isWordChar (c : Char) : Bool :=
  ('A' ≤ c && c ≤ 'Z') || ('a' ≤ c && c ≤ 'z') || ('0' ≤ c && c ≤ '9') || c = '_'

/-- `isWholeWord` from `findMatches.ts`.  `text[start-1] ?? ""` yields a
character that is never a word character when the index is out of range,
modelled by `Option.get?` falling back to `false`. -/
def isWholeWord (text : List Char) (start stop : Nat) : Bool :=
  (if start = 0 then true
   else !(match text.get? (start - 1) with
          | some c => isWordChar c
          | none => false)) &&
  (if text.length ≤ stop then true
   else !(match text.get? stop with
          | some c => isWordChar c
          | none => false))

/-- Scan positions `j, j+1, ...` for the first occurrence of `needle` in
`hay`; auxiliary loop of the JS `String.prototype.indexOf` model. -/
def indexOfAux (hay needle : List Char) : Nat → Nat → Option Nat
  | _, 0 => none
  | j, fuel + 1 =>
    if needle.isPrefixOf (hay.drop j) then some j
    else indexOfAux hay needle (j + 1) fuel

/-- Modelled from the spec: the JS builtin `hay.indexOf(needle, i)` — the
least position `j ≥ i` where `needle` occurs in `hay`, or `none`. -/
def indexOfFrom (hay needle : List Char) (i : Nat) : Option Nat :=
  indexOfAux hay needle i (hay.length + 1 - i)

/-- Modelled from the spec: the per-code-unit JS `toLowerCase` used to
case-fold haystack and needle in literal mode. -/
def lowerChar (c : Char) : Char := c.toLower

/-- The literal-mode scan loop of `computeFindMatches` (lines 70-83): search
`hay` for `needle` from position `i`, filter with `isWholeWord` over `text`,
advance by `max(needle.length, 1)`, stop at 5000 matches.  Fuel-based; `none`
means the fuel ran out. -/
def literalLoop (hay needle text : List Char) (ww : Bool) :
    Nat → Nat → List FindMatch → Option (List FindMatch)
  | 0, _, _ => none
  | fuel + 1, i, acc =>
    match indexOfFrom hay needle i with
    | none => some acc
    | some idx =>
      let stop := idx + needle.length
      if !ww || isWholeWord text idx stop then
        let acc' := acc ++ [⟨idx, stop⟩]
        if 5000 ≤ acc'.length then some acc'
        else literalLoop hay needle text ww fuel (idx + max needle.length 1) acc'
      else literalLoop hay needle text ww fuel (idx + max needle.length 1) acc

/-- A compiled JS regular expression, modelled from the spec as its global
`exec` behaviour: given the subject text and the current `lastIndex`, return
`some (index, length)` of the next match or `none`. -/
def RegexExec : Type := List Char → Nat → Option (Nat × Nat)

/-- Modelled from the spec: `new RegExp(query, flags)` — either a compile
error message or a compiled engine.  The flag argument is `matchCase`
(case-insensitivity is toggled by it in the source). -/
def RegexCompiler : Type := List Char → Bool → Except (List Char) RegexExec

/-- JS `exec` contract for a global regex (modelled from the spec): a match
starts at or after the queried `lastIndex` and lies inside the text. -/
def GoodExec (f : RegexExec) : Prop :=
  ∀ text li idx len, f text li = some (idx, len) →
    li ≤ idx ∧ idx + len ≤ text.length

/-- Every successfully compiled pattern satisfies the `exec` contract. -/
def GoodCompiler (compile : RegexCompiler) : Prop :=
  ∀ q mc f, compile q mc = Except.ok f → GoodExec f

/-- The regex-mode scan loop of `computeFindMatches` (lines 42-57): iterate
`re.exec`; a zero-length match bumps `lastIndex` by one (or breaks at the
end of the text); non-zero matches go through the whole-word filter and the
5000-match cap.  Fuel-based; `none` means the fuel ran out. -/
def regexLoop (f : RegexExec) (text : List Char) (ww : Bool) :
    Nat → Nat → List FindMatch → Option (List FindMatch)
  | 0, _, _ => none
  | fuel + 1, li, acc =>
    match f text li with
    | none => some acc
    | some (idx, len) =>
      if len = 0 then
        if idx < text.length then regexLoop f text ww fuel (idx + 1) acc
        else some acc
      else
        let stop := idx + len
        if ww && !isWholeWord text idx stop then regexLoop f text ww fuel stop acc
        else
          let acc' := acc ++ [⟨idx, stop⟩]
          if 5000 ≤ acc'.length then some acc'
          else regexLoop f text ww fuel stop acc'

/-- `computeFindMatches` from `findMatches.ts`, parameterised by the ambient
`RegExp` compiler (a JS builtin, modelled from the spec).  `none` means a
scan loop ran out of fuel; the totality theorem shows this never happens for
a compiler meeting the `exec` contract. -/
def computeFindMatches (compile : RegexCompiler) (text : List Char)
    (o : FindOptions) : Option FindResult :=
  if o.query = [] then some ⟨[], none⟩
  else if o.regex then
    match compile o.query o.matchCase with
    | Except.error msg =>
      some ⟨[], some (if msg = [] then "Invalid regular expression".toList else msg)⟩
    | Except.ok f =>
      (regexLoop f text o.wholeWord (text.length + 2) 0 []).map (fun ms => ⟨ms, none⟩)
  else
    let hay := if o.matchCase then text else text.map lowerChar
    let needle := if o.matchCase then o.query else o.query.map lowerChar
    if needle = [] then some ⟨[], none⟩
    else (literalLoop hay needle text o.wholeWord (text.length + 2) 0 []).map
      (fun ms => ⟨ms, none⟩)

/-! ## Navigation Controller: `gotoFindIndex` and friends in `App.tsx` -/

/-- JS `%` on integers (remainder truncated toward zero). -/
def jsMod (a b : Int) : Int := Int.tmod a b

/-- `gotoFindIndex` from `App.tsx` (lines 146-149), reduced to its effect on
the active index: no-op when there are no matches, otherwise
`((nextIndex % len) + len) % len`. -/
def gotoFindIndex (numMatches : Nat) (active : Int) (nextIndex : Int) : Int :=
  if numMatches = 0 then active
  else jsMod (jsMod nextIndex numMatches + numMatches) numMatches

/-- `gotoNextMatch` from `App.tsx`: requests `activeFindIndex + 1`
(or 0 when the active index is negative). -/
def gotoNextMatch (numMatches : Nat) (active : Int) : Int :=
  if numMatches = 0 then active
  else gotoFindIndex numMatches active (if active < 0 then 0 else active + 1)

/-- `gotoPrevMatch` from `App.tsx`: requests `activeFindIndex - 1`
(or 0 when the active index is negative). -/
def gotoPrevMatch (numMatches : Nat) (active : Int) : Int :=
  if numMatches = 0 then active
  else gotoFindIndex numMatches active (if active < 0 then 0 else active - 1)

/-! ## Range Compositor: `renderWithHighlights` in `HighlightedTextarea` -/

/-- The `Segment` union from `HighlightedTextarea`: `text` (plain), `find`
(match, with its `isCurrent` flag) and `error`. -/
inductive Segment where
  | text : List Char → Segment
  | find : List Char → Bool → Segment
  | error : List Char → Segment
  deriving DecidableEq

/-- The substring carried by a segment. -/
def Segment.value : Segment → List Char
  | Segment.text v => v
  | Segment.find v _ => v
  | Segment.error v => v

/-- Whether a segment is tagged `error`. -/
def Segment.isError : Segment → Bool
  | Segment.error _ => true
  | _ => false

/-- Whether a segment is tagged `find`. -/
def Segment.isFind : Segment → Bool
  | Segment.find _ _ => true
  | _ => false

/-- Concatenation of the text carried by a segment sequence. -/
def concatSegs (segs : List Segment) : List Char :=
  (segs.map Segment.value).flatten

/-- Number of `error`-tagged segments in a sequence. -/
def countError (segs : List Segment) : Nat :=
  segs.countP Segment.isError

/-- JS `text.slice(a, b)` for `0 ≤ a ≤ b` (the only way the compositor
calls it). -/
def sl (text : List Char) (a b : Nat) : List Char :=
  (text.drop a).take (b - a)

/-- Clamp one `HighlightRange` (arbitrary JS numbers) into `[0, textLen]`,
as in `clampRanges`. -/
def clampPair (textLen : Nat) (r : Int × Int) : Nat × Nat :=
  ((max 0 (min (textLen : Int) r.1)).toNat, (max 0 (min (textLen : Int) r.2)).toNat)

/-- `rangeLE a b` iff the JS comparator `(a.start - b.start) || (a.end - b.end)`
is `≤ 0`, i.e. `a` may stay before `b`. -/
def rangeLE (a b : Nat × Nat) : Bool :=
  a.1 < b.1 || (a.1 = b.1 && a.2 ≤ b.2)

/-- Stable insertion used to model `Array.prototype.sort` with the
comparator of `clampRanges`. -/
def insertRange (x : Nat × Nat) : List (Nat × Nat) → List (Nat × Nat)
  | [] => [x]
  | y :: ys => if rangeLE y x then y :: insertRange x ys else x :: y :: ys

/-- Stable insertion sort modelling `out.sort(...)` in `clampRanges`. -/
def sortRanges : List (Nat × Nat) → List (Nat × Nat)
  | [] => []
  | x :: xs => insertRange x (sortRanges xs)

/-- `clampRanges` from `HighlightedTextarea`: clamp every range into the
buffer, drop empty or inverted ranges, sort by `(start, end)`. -/
def clampRanges (textLen : Nat) (ranges : List (Int × Int)) : List (Nat × Nat) :=
  sortRanges (((ranges.map (clampPair textLen)).filter (fun r => r.1 < r.2)))

/-- The non-breaking space used for highlighted spaces. -/
def nbsp : Char := '\u00A0'

/-- The space-to-NBSP substitution of `pushErrorChar`. -/
def nbspC (c : Char) : Char := if c = ' ' then nbsp else c

/-- Mutable state of the `renderWithHighlights` walk: emitted segments (in
order), the cursor, and the `errorRendered` flag. -/
structure RState where
  segs : List Segment
  cursor : Nat
  errorRendered : Bool
  deriving DecidableEq

/-- `pushText` from `renderWithHighlights`: plain segments are only pushed
when non-empty. -/
def pushText (v : List Char) (segs : List Segment) : List Segment :=
  if v = [] then segs else segs ++ [Segment.text v]

/-- The one-character string `pushErrorChar` receives for position `p`:
`text[p] ?? ""` with a space turned into a non-breaking space. -/
def errVal (text : List Char) (p : Nat) : List Char :=
  match text.get? p with
  | some c => [nbspC c]
  | none => []

/-- `pushErrorChar` applied to `text[p] ?? ""`: pushes one `error` segment,
a space becoming a non-breaking space. -/
def pushErrorChar (text : List Char) (p : Nat) (segs : List Segment) : List Segment :=
  segs ++ [Segment.error (errVal text p)]

/-- The "text before match" block of `renderWithHighlights` (lines 72-84):
emit the gap `[cursor, start)` and, when the error offset falls inside it
and is not yet rendered, split the gap around the error character. -/
def gapStep (text : List Char) (errorPos : Option Int) (start : Nat)
    (st : RState) : RState :=
  if st.cursor < start then
    match errorPos with
    | some p =>
      if !st.errorRendered ∧ (st.cursor : Int) ≤ p ∧ p < (start : Int) then
        let q := p.toNat
        let segs := pushText (sl text st.cursor q) st.segs
        let segs := pushErrorChar text q segs
        let segs := if q + 1 < start then pushText (sl text (q + 1) start) segs else segs
        ⟨segs, start, true⟩
      else ⟨pushText (sl text st.cursor start) st.segs, start, st.errorRendered⟩
    | none => ⟨pushText (sl text st.cursor start) st.segs, start, st.errorRendered⟩
  else st

/-- The "match itself" block of `renderWithHighlights` (lines 86-104): emit
the match `[start, stop)`, split around the error character when the error
offset falls inside it and is not yet rendered, preserving the `isCurrent`
flag on both halves. -/
def matchStep (text : List Char) (errorPos : Option Int) (active : Int)
    (start stop : Nat) (idx : Nat) (st : RState) : RState :=
  let isCur := ((idx : Int) = active)
  match errorPos with
  | some p =>
    if !st.errorRendered ∧ (start : Int) ≤ p ∧ p < (stop : Int) then
      let q := p.toNat
      let before := sl text start q
      let after := sl text (q + 1) stop
      let segs := if before ≠ [] then st.segs ++ [Segment.find before isCur] else st.segs
      let segs := pushErrorChar text q segs
      let segs := if after ≠ [] then segs ++ [Segment.find after isCur] else segs
      ⟨segs, stop, true⟩
    else ⟨st.segs ++ [Segment.find (sl text start stop) isCur], stop, st.errorRendered⟩
  | none => ⟨st.segs ++ [Segment.find (sl text start stop) isCur], stop, st.errorRendered⟩

/-- The main `for` loop of `renderWithHighlights` (lines 67-105) over the
clamped ranges, carrying the range index for the `isCurrent` comparison. -/
def renderLoop (text : List Char) (errorPos : Option Int) (active : Int) :
    List (Nat × Nat) → Nat → RState → RState
  | [], _, st => st
  | (start, stop) :: rest, idx, st =>
    if stop ≤ st.cursor then renderLoop text errorPos active rest (idx + 1) st
    else
      let start' := max start st.cursor
      let st := gapStep text errorPos start' st
      let st := matchStep text errorPos active start' stop idx st
      renderLoop text errorPos active rest (idx + 1) st

/-- The tail block of `renderWithHighlights` (lines 107-118): emit the
remainder after the last match, split around the error character when
needed. -/
def tailStep (text : List Char) (errorPos : Option Int) (st : RState) : RState :=
  if st.cursor < text.length then
    match errorPos with
    | some p =>
      if !st.errorRendered ∧ (st.cursor : Int) ≤ p ∧ p < (text.length : Int) then
        let q := p.toNat
        let segs := pushText (sl text st.cursor q) st.segs
        let segs := pushErrorChar text q segs
        ⟨pushText (sl text (q + 1) text.length) segs, text.length, true⟩
      else ⟨pushText (sl text st.cursor text.length) st.segs, text.length, st.errorRendered⟩
    | none => ⟨pushText (sl text st.cursor text.length) st.segs, text.length, st.errorRendered⟩
  else st

/-- `renderWithHighlights` from `HighlightedTextarea` (lines 40-147), as the
segment sequence it renders.  The two fallback returns (error-only JSX and
the raw text) are modelled as the equivalent segment sequences. -/
def renderWithHighlights (text : List Char) (highlightPosition : Option Int)
    (findRanges : List (Int × Int)) (activeFindIndex : Int) : List Segment :=
  let ranges := clampRanges text.length findRanges
  let st := renderLoop text highlightPosition activeFindIndex ranges 0 ⟨[], 0, false⟩
  let st := tailStep text highlightPosition st
  if st.segs = [] then
    match highlightPosition with
    | some p =>
      if 0 ≤ p ∧ p < (text.length : Int) then
        let q := p.toNat
        [Segment.text (sl text 0 q),
         Segment.error (errVal text q),
         Segment.text (sl text (q + 1) text.length)]
      else [Segment.text text]
    | none => [Segment.text text]
  else st.segs

/-! ## Position-Preserving Reformatter: `formatJsonBestEffort.ts` -/

/-- Result of `formatJsonBestEffort`: `{output, highlight?}` with a 1-based
`(line, column)` highlight. -/
structure BestEffortFormatResult where
  output : List Char
  highlight : Option (Nat × Nat)
  deriving DecidableEq

/-- The whitespace characters normalised outside strings. -/
def isJsonWs (c : Char) : Bool :=
  c = ' ' || c = '\t' || c = '\n' || c = '\r'

/-- Auxiliary scan for `nextNonWhitespaceIndex`. -/
def nextNonWsAux (text : List Char) (limit : Nat) : Nat → Nat → Option Nat
  | _, 0 => none
  | i, fuel + 1 =>
    if i < limit then
      match text.get? i with
      | some c => if isJsonWs c then nextNonWsAux text limit (i + 1) fuel else some i
      | none => nextNonWsAux text limit (i + 1) fuel
    else none

/-- `nextNonWhitespaceIndex` from `formatJsonBestEffort.ts`: first index in
`[start, limit)` holding a non-whitespace character, `none` for the JS `-1`. -/
def nextNonWhitespaceIndex (text : List Char) (start limit : Nat) : Option Nat :=
  nextNonWsAux text limit start (limit + 1 - start)

/-- `offsetToLineColumn` scan: consume `p` characters counting 1-based line
and column. -/
def lineColAux : List Char → Nat → Nat → Nat → Nat × Nat
  | _, 0, line, col => (line, col)
  | [], _ + 1, line, col => (line, col)
  | c :: rest, p + 1, line, col =>
    if c = '\n' then lineColAux rest p (line + 1) 1
    else lineColAux rest p line (col + 1)

/-- `offsetToLineColumn` from `formatJsonBestEffort.ts` (the Position
Mapper): clamp the offset, then scan counting newlines; 1-based. -/
def offsetToLineColumn (text : List Char) (position : Nat) : Nat × Nat :=
  lineColAux text (min position text.length) 1 1

/-- `ensureFinalNewline` from `format/utils.ts`. -/
def ensureFinalNewline (l : List Char) : List Char :=
  if l = [] then l
  else if l.getLast? = some '\n' then l else l ++ ['\n']

/-- The sentinel marker `"\u0000"` inserted at the error position. -/
def sentinel : Char := '\u0000'

/-- Mutable state of the `formatJsonBestEffort` pass.  `out` is the JS
`out : string[]` array of pushed strings, kept in reverse order so the most
recently pushed element is the head (the source inspects
`out[out.length - 1]`). -/
structure FmtState where
  out : List (List Char)
  indent : Nat
  inString : Bool
  escaping : Bool
  pendingSpace : Bool
  insertedSentinel : Bool
  deriving DecidableEq

/-- `maybeInsertSentinel` from `formatJsonBestEffort.ts`: before consuming
input index `srcIndex`, push the sentinel when it equals the error
position and no sentinel was pushed yet. -/
def maybeInsertSentinel (errorPosition : Option Int) (srcIndex : Nat)
    (s : FmtState) : FmtState :=
  if s.insertedSentinel then s
  else match errorPosition with
    | none => s
    | some p =>
      if (srcIndex : Int) = p then
        { s with out := [sentinel] :: s.out, insertedSentinel := true }
      else s

/-- The string pushed by `pushIndent`: `"  ".repeat(indent)`. -/
def indentChars (indent : Nat) : List Char :=
  List.replicate (2 * indent) ' '

/-- The `pendingSpace` block of `formatJsonBestEffort` (lines 98-105): when
a whitespace run was pending, push one space unless the previous pushed
element is empty or ends in a newline. -/
def flushPendingSpace (s : FmtState) : FmtState :=
  if s.pendingSpace then
    let last := (s.out.head?).getD []
    let lastIsNewline := last.getLast? = some '\n'
    let s := if !lastIsNewline && last ≠ [] then { s with out := [' '] :: s.out } else s
    { s with pendingSpace := false }
  else s

/-- One step of the `formatJsonBestEffort` character loop, for the input
character `ch` at index `i`; returns the next state and the next loop
index (the empty-container case jumps past the matching close). -/
def fmtStep (raw : List Char) (errorPosition : Option Int) (i : Nat) (ch : Char)
    (s : FmtState) : FmtState × Nat :=
  let s := maybeInsertSentinel errorPosition i s
  if s.inString then
    let s := { s with out := [ch] :: s.out }
    if s.escaping then ({ s with escaping := false }, i + 1)
    else if ch = '\\' then ({ s with escaping := true }, i + 1)
    else if ch = '"' then ({ s with inString := false }, i + 1)
    else (s, i + 1)
  else if isJsonWs ch then ({ s with pendingSpace := true }, i + 1)
  else
    let s := flushPendingSpace s
    if ch = '"' then ({ s with inString := true, out := [ch] :: s.out }, i + 1)
    else if ch = '{' || ch = '[' then
      let close := if ch = '{' then '}' else ']'
      match nextNonWhitespaceIndex raw (i + 1) raw.length with
      | some j =>
        if raw.get? j = some close then
          ({ s with out := [close] :: [ch] :: s.out }, j + 1)
        else
          let s := { s with out := ['\n'] :: [ch] :: s.out, indent := s.indent + 1 }
          ({ s with out := indentChars s.indent :: s.out }, i + 1)
      | none =>
        let s := { s with out := ['\n'] :: [ch] :: s.out, indent := s.indent + 1 }
        ({ s with out := indentChars s.indent :: s.out }, i + 1)
    else if ch = '}' || ch = ']' then
      let s := { s with out := ['\n'] :: s.out, indent := s.indent - 1 }
      ({ s with out := [ch] :: indentChars s.indent :: s.out }, i + 1)
    else if ch = ',' then
      let s := { s with out := ['\n'] :: [','] :: s.out }
      ({ s with out := indentChars s.indent :: s.out }, i + 1)
    else if ch = ':' then ({ s with out := [':', ' '] :: s.out }, i + 1)
    else ({ s with out := [ch] :: s.out }, i + 1)

/-- The `for` loop of `formatJsonBestEffort` (lines 71-149), fuel-based:
`none` means the fuel ran out. -/
def fmtLoop (raw : List Char) (errorPosition : Option Int) :
    Nat → Nat → FmtState → Option FmtState
  | 0, _, _ => none
  | fuel + 1, i, s =>
    match raw.get? i with
    | none => some s
    | some ch =>
      let (s', i') := fmtStep raw errorPosition i ch s
      fmtLoop raw errorPosition fuel i' s'

/-- Remove the first occurrence of the sentinel, as JS
`withSentinel.replace(sentinel, "")` does for a one-character pattern. -/
def removeSentinel (l : List Char) : List Char := l.erase sentinel

/-- `formatJsonBestEffort` from `formatJsonBestEffort.ts` (lines 43-166).
`none` means the character loop ran out of fuel; the totality theorem shows
this never happens. -/
def formatJsonBestEffort (raw : List Char) (errorPosition : Option Int) :
    Option BestEffortFormatResult :=
  match fmtLoop raw errorPosition (raw.length + 1) 0
      ⟨[], 0, false, false, false, false⟩ with
  | none => none
  | some s =>
    let s :=
      if !s.insertedSentinel then
        match errorPosition with
        | some p =>
          if p = (raw.length : Int) then
            { s with out := [sentinel] :: s.out, insertedSentinel := true }
          else s
        | none => s
      else s
    let withSentinel := s.out.reverse.flatten
    let highlight :=
      match withSentinel.findIdx? (fun c => c = sentinel) with
      | some si => some (offsetToLineColumn withSentinel si)
      | none => none
    some ⟨ensureFinalNewline (removeSentinel withSentinel), highlight⟩

/-! ## Concrete regex engine instances (modelled from the spec) -/

/-- Modelled from the spec: the compiled JS regex `/a*/g` (missing builtin
`RegExp`).  At every scan position it matches the possibly empty run of
`a` characters starting there; past the end of the text it fails. -/
def aStarExec : RegexExec := fun text li =>
  if li ≤ text.length then
    some (li, ((text.drop li).takeWhile (fun c => c = 'a')).length)
  else none

/-- Modelled from the spec: a `RegExp` compiler whose every pattern compiles
to the `/a*/g` engine. -/
def aStarCompiler : RegexCompiler := fun _ _ => Except.ok aStarExec

/-- Modelled from the spec: a `RegExp` compiler that rejects every pattern,
as `new RegExp` does for an invalid pattern such as `"("`. -/
def failCompiler : RegexCompiler := fun _ _ =>
  Except.error "Invalid regular expression: missing closing parenthesis".toList

/-! ## Claim theorems -/

/-- Bridge: `Int.tmod` of two natural numbers is their natural remainder. -/
theorem tmod_natCast (m n : Nat) : Int.tmod (m : Int) (n : Int) = ((m % n : Nat) : Int) :=
  rfl

/-- Bridge: `Int.tmod` of `-1` by a natural number truncates toward zero. -/
theorem tmod_negOne (n : Nat) : Int.tmod (-1) (n : Int) = -((1 % n : Nat) : Int) :=
  rfl

/-- Claim C8: for a non-empty match list of length `N`, requesting index
`-1` from current index 0 lands on `N - 1` and requesting `N` from current
`N - 1` lands on 0 (wraparound via modulo, also through
`gotoPrevMatch`/`gotoNextMatch`); with an empty match list the call is a
no-op and the active index stays `-1`. -/
theorem c8_wraparound (N : Nat) (h : 1 ≤ N) (r : Int) :
    gotoFindIndex N 0 (-1) = (N : Int) - 1 ∧
    gotoFindIndex N ((N : Int) - 1) (N : Int) = 0 ∧
    gotoPrevMatch N 0 = (N : Int) - 1 ∧
    gotoNextMatch N ((N : Int) - 1) = 0 ∧
    gotoFindIndex 0 (-1) r = -1 := by
  have hne : N ≠ 0 := by omega
  have hprev : gotoFindIndex N 0 (-1) = (N : Int) - 1 := by
    rcases Nat.lt_or_ge N 2 with hN | hN
    · interval_cases N
      · decide
    · simp only [gotoFindIndex, if_neg hne, jsMod]
      rw [tmod_negOne, Nat.mod_eq_of_lt (by omega : 1 < N)]
      have hcast : (-((1 % N : Nat) : Int) + N) = ((N - 1 : Nat) : Int) := by
        rw [Nat.mod_eq_of_lt (by omega : 1 < N)]; omega
      rw [Nat.mod_eq_of_lt (by omega : 1 < N)] at hcast
      rw [hcast, tmod_natCast, Nat.mod_eq_of_lt (by omega : N - 1 < N)]
      omega
  have hnextIdx : gotoFindIndex N ((N : Int) - 1) (N : Int) = 0 := by
    simp only [gotoFindIndex, if_neg hne, jsMod]
    rw [tmod_natCast, Nat.mod_self]
    simp only [Nat.cast_zero, zero_add]
    rw [tmod_natCast, Nat.mod_self]
    rfl
  refine ⟨hprev, hnextIdx, ?_, ?_, ?_⟩
  · simp only [gotoPrevMatch, if_neg hne]
    have : ¬ ((0 : Int) < 0) := by omega
    simp only [this, if_false]
    simpa using hprev
  · simp only [gotoNextMatch, if_neg hne]
    have h0 : ¬ ((N : Int) - 1 < 0) := by
      have : (1 : Int) ≤ (N : Int) := by exact_mod_cast h
      omega
    simp only [h0, if_false]
    have : ((N : Int) - 1 + 1) = (N : Int) := by omega
    rw [this]
    exact hnextIdx
  · simp [gotoFindIndex]

/-- Witness for C8 at `N = 3`, `r = 7`. -/
theorem c8_wraparound_witness :
    gotoFindIndex 3 0 (-1) = (3 : Int) - 1 ∧
    gotoFindIndex 3 ((3 : Int) - 1) (3 : Int) = 0 ∧
    gotoPrevMatch 3 0 = (3 : Int) - 1 ∧
    gotoNextMatch 3 ((3 : Int) - 1) = 0 ∧
    gotoFindIndex 0 (-1) 7 = -1 :=
  c8_wraparound 3 (by decide) 7

/-- Claim C4 counterexample: `computeFindMatches` with `regex = true` and
query `"a*"` on `"bbb"` returns an empty match list — the zero-length match
positions are *not* included in the result, contrary to the claim. -/
theorem c4_counterexample :
    (computeFindMatches aStarCompiler "bbb".toList
        ⟨"a*".toList, false, false, true⟩).map FindResult.matchList = some [] ∧
    (0 : Nat) < "bbb".toList.length := by
  decide

/-- Claim C4 (amended): the scan terminates (the loop returns within its
fuel), every position 0..3 of `"bbb"` produces a zero-length match of
`/a*/g` (each advancing the scan cursor by one character), those matches
are skipped, and the result is the empty match list with no error. -/
theorem c4_zero_length_guard :
    computeFindMatches aStarCompiler "bbb".toList
      ⟨"a*".toList, false, false, true⟩ = some ⟨[], none⟩ ∧
    aStarExec "bbb".toList 0 = some (0, 0) ∧
    aStarExec "bbb".toList 1 = some (1, 0) ∧
    aStarExec "bbb".toList 2 = some (2, 0) ∧
    aStarExec "bbb".toList 3 = some (3, 0) := by
  decide

/-- Claim C5 counterexample: reformatting `'{"a":1}'` with error offset 7
produces the expected output text but highlight `{line 3, column 2}` — the
appended end-of-input sentinel lands *after* the closing brace — not
`{line 3, column 1}` as claimed. -/
theorem c5_counterexample :
    formatJsonBestEffort ['\x7b', '"', 'a', '"', ':', '1', '\x7d'] (some 7) =
      some ⟨['\x7b', '\n', ' ', ' ', '"', 'a', '"', ':', ' ', '1', '\n', '\x7d', '\n'], some (3, 2)⟩ ∧
    ((3, 2) : Nat × Nat) ≠ (3, 1) := by
  decide

/-- Claim C5 (amended): reformatting `'{"a":1}'` with `errorOffset = 7`
yields output `'{\n  "a": 1\n}\n'` and highlight `{line: 3, column: 2}`. -/
theorem c5_reformat_roundtrip :
    formatJsonBestEffort ['\x7b', '"', 'a', '"', ':', '1', '\x7d'] (some 7) =
      some ⟨['\x7b', '\n', ' ', ' ', '"', 'a', '"', ':', ' ', '1', '\n', '\x7d', '\n'], some (3, 2)⟩ := by
  decide

/-- Claim C10: with raw input `'{  }'` and error position 1 — strictly
inside the whitespace of an empty container pair, and in range
`0 ≤ 1 < 4` — the empty-container compaction skips the sentinel insertion
and `formatJsonBestEffort` returns no highlight at all. -/
theorem c10_skipped_sentinel :
    formatJsonBestEffort "{  }".toList (some 1) = some ⟨"{}\n".toList, none⟩ ∧
    (0 : Int) ≤ 1 ∧ (1 : Int) < (("{  }".toList.length : Nat) : Int) := by
  decide

/-- Claim C6: for every buffer, searching in regex mode with a pattern the
`RegExp` compiler rejects yields an empty match list together with a
non-empty error message, and no partial results. -/
theorem c6_invalid_regex (compile : RegexCompiler) (text q msg : List Char)
    (mc ww : Bool) (hq : q ≠ []) (hc : compile q mc = Except.error msg) :
    ∃ m, computeFindMatches compile text ⟨q, mc, ww, true⟩ =
        some ⟨[], some m⟩ ∧ m ≠ [] := by
  refine ⟨if msg = [] then "Invalid regular expression".toList else msg, ?_, ?_⟩
  · simp only [computeFindMatches, if_neg hq, hc]
    simp
  · by_cases hm : msg = [] <;> simp [hm]

/-- Witness for C6: the always-failing compiler on buffer `"xyz"` with
query `"("`. -/
theorem c6_invalid_regex_witness :
    ∃ m, computeFindMatches failCompiler "xyz".toList
        ⟨"(".toList, false, false, true⟩ = some ⟨[], some m⟩ ∧ m ≠ [] :=
  c6_invalid_regex failCompiler "xyz".toList "(".toList
    "Invalid regular expression: missing closing parenthesis".toList false false
    (by decide) rfl

/-! Generic facts about slices, segment lists and the NBSP substitution. -/

def SegOK (text : List Char) (s : Segment) : Prop :=
  if s.isError = true then ' ' ∉ s.value else s.value <:+: text

def SegAll (text : List Char) (segs : List Segment) : Prop :=
  ∀ s ∈ segs, SegOK text s

def substNbsp (text : List Char) (q : Nat) : List Char :=
  text.take q ++ errVal text q ++ text.drop (q + 1)

theorem concatSegs_append (segs : List Segment) (s : Segment) :
    concatSegs (segs ++ [s]) = concatSegs segs ++ s.value := by
  simp [concatSegs]

theorem countError_append (segs : List Segment) (s : Segment) :
    countError (segs ++ [s]) = countError segs + (if s.isError = true then 1 else 0) := by
  rcases s with v | ⟨v, b⟩ | v <;>
    simp [countError, List.countP_append, List.countP_singleton, Segment.isError]

theorem concatSegs_pushText (v : List Char) (segs : List Segment) :
    concatSegs (pushText v segs) = concatSegs segs ++ v := by
  unfold pushText
  split
  · simp [*]
  · simp [concatSegs_append, Segment.value]

theorem countError_pushText (v : List Char) (segs : List Segment) :
    countError (pushText v segs) = countError segs := by
  unfold pushText
  split
  · rfl
  · simp [countError_append, Segment.isError]

theorem concatSegs_pushErrorChar (text : List Char) (p : Nat) (segs : List Segment) :
    concatSegs (pushErrorChar text p segs) = concatSegs segs ++ errVal text p := by
  simp [pushErrorChar, concatSegs_append, Segment.value]

theorem countError_pushErrorChar (text : List Char) (p : Nat) (segs : List Segment) :
    countError (pushErrorChar text p segs) = countError segs + 1 := by
  simp [pushErrorChar, countError_append, Segment.isError]

theorem sl_infix (text : List Char) (a b : Nat) : sl text a b <:+: text := by
  refine ⟨text.take a, (text.drop a).drop (b - a), ?_⟩
  rw [List.append_assoc, sl, List.take_append_drop, List.take_append_drop]

theorem segOK_sl (text : List Char) (a b : Nat) : SegOK text (Segment.text (sl text a b)) := by
  simp [SegOK, Segment.isError, Segment.value, sl_infix]

theorem segOK_find_sl (text : List Char) (a b : Nat) (cur : Bool) :
    SegOK text (Segment.find (sl text a b) cur) := by
  simp [SegOK, Segment.isError, Segment.value, sl_infix]

theorem nbspC_ne_space (c : Char) : nbspC c ≠ ' ' := by
  unfold nbspC
  split
  · decide
  · assumption

theorem segOK_err (text : List Char) (p : Nat) : SegOK text (Segment.error (errVal text p)) := by
  simp only [SegOK, Segment.isError, Segment.value, if_pos rfl, errVal]
  cases text.get? p with
  | some c =>
    simp only [List.mem_singleton]
    intro h
    exact nbspC_ne_space c h.symm
  | none => simp

theorem segAll_append (text : List Char) (segs : List Segment) (s : Segment)
    (h1 : SegAll text segs) (h2 : SegOK text s) : SegAll text (segs ++ [s]) := by
  intro x hx
  rcases List.mem_append.mp hx with h | h
  · exact h1 x h
  · rcases List.mem_singleton.mp h with rfl
    exact h2

theorem segAll_pushText (text v : List Char) (segs : List Segment) (a b : Nat)
    (hv : v = sl text a b) (h1 : SegAll text segs) : SegAll text (pushText v segs) := by
  unfold pushText
  split
  · exact h1
  · exact segAll_append text segs _ h1 (hv ▸ segOK_sl text a b)

theorem segAll_pushErrorChar (text : List Char) (p : Nat) (segs : List Segment)
    (h1 : SegAll text segs) : SegAll text (pushErrorChar text p segs) :=
  segAll_append text segs _ h1 (segOK_err text p)

theorem take_append_sl (text : List Char) (a b : Nat) (h : a ≤ b) :
    text.take b = text.take a ++ sl text a b := by
  conv_lhs => rw [show b = a + (b - a) from by omega]
  rw [List.take_add]
  rfl

theorem sl_append_sl (text : List Char) (a c b : Nat) (h1 : a ≤ c) (h2 : c ≤ b) :
    sl text a c ++ sl text c b = sl text a b := by
  have key : text.take a ++ (sl text a c ++ sl text c b) = text.take a ++ sl text a b := by
    rw [← List.append_assoc, ← take_append_sl text a c h1, ← take_append_sl text c b h2,
      ← take_append_sl text a b (le_trans h1 h2)]
  exact List.append_cancel_left key

theorem substNbsp_take (text : List Char) (q b : Nat) (h1 : q < b) :
    substNbsp (text.take b) q = text.take q ++ errVal text q ++ sl text (q + 1) b := by
  unfold substNbsp
  rw [List.take_take, inf_eq_left.mpr (le_of_lt h1)]
  congr 1
  · congr 1
    unfold errVal
    rw [List.get?_take h1]
  · rw [List.drop_take]
    rfl

theorem substNbsp_take_extend (text : List Char) (q c b : Nat) (hqc : q < c) (hcb : c ≤ b) :
    substNbsp (text.take c) q ++ sl text c b = substNbsp (text.take b) q := by
  rw [substNbsp_take text q c hqc, substNbsp_take text q b (by omega)]
  rw [List.append_assoc, List.append_assoc, sl_append_sl text (q + 1) c b hqc hcb,
    ← List.append_assoc]

/-! The walk invariant of `renderWithHighlights`. -/

def RendOK (text : List Char) (ep : Option Int) (st : RState) : Prop :=
  st.cursor ≤ text.length ∧ SegAll text st.segs ∧
  (if st.errorRendered = true then
    ∃ p, ep = some p ∧ 0 ≤ p ∧ p.toNat < st.cursor ∧
      concatSegs st.segs = substNbsp (text.take st.cursor) p.toNat ∧
      countError st.segs = 1
  else
    concatSegs st.segs = text.take st.cursor ∧ countError st.segs = 0 ∧
    ∀ p, ep = some p → 0 ≤ p → (st.cursor : Int) ≤ p)

theorem plainAdvance_ok (text : List Char) (ep : Option Int) (b : Nat) (st : RState)
    (hok : RendOK text ep st) (hbl : b ≤ text.length) (hcb : st.cursor ≤ b)
    (hblocked : st.errorRendered = false → ∀ p, ep = some p → 0 ≤ p → (b : Int) ≤ p) :
    RendOK text ep ⟨pushText (sl text st.cursor b) st.segs, b, st.errorRendered⟩ := by
  obtain ⟨hcl, hsegs, hrest⟩ := hok
  refine ⟨hbl, segAll_pushText text _ _ st.cursor b rfl hsegs, ?_⟩
  rcases hb : st.errorRendered with _ | _
  · simp only [hb, Bool.false_eq_true, if_false] at hrest ⊢
    obtain ⟨hcc, hcnt, hcls⟩ := hrest
    refine ⟨?_, ?_, hblocked hb⟩
    · rw [concatSegs_pushText, hcc, ← take_append_sl text st.cursor b hcb]
    · rw [countError_pushText, hcnt]
  · simp only [hb, if_true] at hrest ⊢
    obtain ⟨p, hep, hp0, hq, hcc, hcnt⟩ := hrest
    refine ⟨p, hep, hp0, by omega, ?_, ?_⟩
    · rw [concatSegs_pushText, hcc, substNbsp_take_extend text p.toNat st.cursor b hq hcb]
    · rw [countError_pushText, hcnt]

theorem findAdvance_ok (text : List Char) (ep : Option Int) (b : Nat) (cur : Bool)
    (st : RState)
    (hok : RendOK text ep st) (hbl : b ≤ text.length) (hcb : st.cursor ≤ b)
    (hblocked : st.errorRendered = false → ∀ p, ep = some p → 0 ≤ p → (b : Int) ≤ p) :
    RendOK text ep ⟨st.segs ++ [Segment.find (sl text st.cursor b) cur], b, st.errorRendered⟩ := by
  obtain ⟨hcl, hsegs, hrest⟩ := hok
  refine ⟨hbl, segAll_append text _ _ hsegs (segOK_find_sl text st.cursor b cur), ?_⟩
  rcases hb : st.errorRendered with _ | _
  · simp only [hb, Bool.false_eq_true, if_false] at hrest ⊢
    obtain ⟨hcc, hcnt, hcls⟩ := hrest
    refine ⟨?_, ?_, hblocked hb⟩
    · rw [concatSegs_append, hcc]
      simp only [Segment.value]
      rw [← take_append_sl text st.cursor b hcb]
    · rw [countError_append, hcnt]
      simp [Segment.isError]
  · simp only [hb, if_true] at hrest ⊢
    obtain ⟨p, hep, hp0, hq, hcc, hcnt⟩ := hrest
    refine ⟨p, hep, hp0, by omega, ?_, ?_⟩
    · rw [concatSegs_append, hcc]
      simp only [Segment.value]
      rw [substNbsp_take_extend text p.toNat st.cursor b hq hcb]
    · rw [countError_append, hcnt]
      simp [Segment.isError]

theorem sl_self (text : List Char) (a : Nat) : sl text a a = [] := by
  simp [sl]

theorem gapStep_ok (text : List Char) (ep : Option Int) (start : Nat) (st : RState)
    (hok : RendOK text ep st) (hsl : start ≤ text.length) :
    RendOK text ep (gapStep text ep start st) ∧
      (gapStep text ep start st).cursor = max st.cursor start := by
  unfold gapStep
  by_cases hc : st.cursor < start
  · rw [if_pos hc]
    cases ep with
    | none =>
      refine ⟨plainAdvance_ok text none start st hok hsl (le_of_lt hc) ?_, ?_⟩
      · intro _ p hp
        cases hp
      · dsimp only
        omega
    | some p =>
      dsimp only
      by_cases hcond : (!st.errorRendered) = true ∧ (st.cursor : Int) ≤ p ∧ p < (start : Int)
      · rw [if_pos hcond]
        obtain ⟨hrendB, hcp, hps⟩ := hcond
        have hrendF : st.errorRendered = false := by
          revert hrendB
          cases st.errorRendered <;> simp
        obtain ⟨hcl, hsegs, hrest⟩ := hok
        simp only [hrendF, Bool.false_eq_true, if_false] at hrest
        obtain ⟨hcc, hcnt, hcls⟩ := hrest
        have hp0 : 0 ≤ p := by omega
        have hcq : st.cursor ≤ p.toNat := by omega
        have hqs : p.toNat < start := by omega
        refine ⟨⟨hsl, ?_, ?_⟩, by dsimp only; omega⟩
        · have base := segAll_pushErrorChar text p.toNat _
            (segAll_pushText text _ st.segs st.cursor p.toNat rfl hsegs)
          by_cases hq1 : p.toNat + 1 < start
          · rw [if_pos hq1]
            exact segAll_pushText text _ _ (p.toNat + 1) start rfl base
          · rw [if_neg hq1]
            exact base
        · simp only [if_true]
          refine ⟨p, rfl, hp0, by omega, ?_, ?_⟩
          · rw [substNbsp_take text p.toNat start hqs]
            by_cases hq1 : p.toNat + 1 < start
            · rw [if_pos hq1, concatSegs_pushText, concatSegs_pushErrorChar,
                concatSegs_pushText, hcc, ← take_append_sl text st.cursor p.toNat hcq]
            · rw [if_neg hq1]
              have hstart : p.toNat + 1 = start := by omega
              rw [concatSegs_pushErrorChar, concatSegs_pushText, hcc,
                ← take_append_sl text st.cursor p.toNat hcq, ← hstart, sl_self]
              simp
          · by_cases hq1 : p.toNat + 1 < start
            · rw [if_pos hq1, countError_pushText, countError_pushErrorChar,
                countError_pushText, hcnt]
            · rw [if_neg hq1, countError_pushErrorChar, countError_pushText, hcnt]
      · rw [if_neg hcond]
        refine ⟨plainAdvance_ok text (some p) start st hok hsl (le_of_lt hc) ?_, ?_⟩
        · intro hrendF p' hp' hp0'
          obtain rfl : p = p' := by injection hp'
          obtain ⟨hcl, hsegs, hrest⟩ := hok
          simp only [hrendF, Bool.false_eq_true, if_false] at hrest
          obtain ⟨hcc, hcnt, hcls⟩ := hrest
          have hcp : (st.cursor : Int) ≤ p := hcls p rfl hp0'
          by_contra hlt
          exact hcond ⟨by simp [hrendF], hcp, by omega⟩
        · dsimp only
          omega
  · rw [if_neg hc]
    exact ⟨hok, by omega⟩

theorem concat_condFind (segs : List Segment) (v : List Char) (cur : Bool) :
    concatSegs (if v ≠ [] then segs ++ [Segment.find v cur] else segs) =
      concatSegs segs ++ v := by
  split
  · rw [concatSegs_append]
    rfl
  · next h =>
    have hv : v = [] := by
      by_contra hne
      exact h hne
    simp [hv]

theorem count_condFind (segs : List Segment) (v : List Char) (cur : Bool) :
    countError (if v ≠ [] then segs ++ [Segment.find v cur] else segs) =
      countError segs := by
  split
  · rw [countError_append]
    simp [Segment.isError]
  · rfl

theorem segAll_condFind (text : List Char) (segs : List Segment) (v : List Char)
    (cur : Bool) (a b : Nat) (hv : v = sl text a b) (h : SegAll text segs) :
    SegAll text (if v ≠ [] then segs ++ [Segment.find v cur] else segs) := by
  split
  · exact segAll_append text segs _ h (hv ▸ segOK_find_sl text a b cur)
  · exact h

theorem matchStep_ok (text : List Char) (ep : Option Int) (active : Int)
    (start stop idx : Nat) (st : RState)
    (hok : RendOK text ep st) (hcs : st.cursor = start) (hss : start < stop)
    (hsl : stop ≤ text.length) :
    RendOK text ep (matchStep text ep active start stop idx st) ∧
      (matchStep text ep active start stop idx st).cursor = stop := by
  subst hcs
  unfold matchStep
  cases ep with
  | none =>
    dsimp only
    refine ⟨findAdvance_ok text none stop _ st hok hsl (by omega) ?_, rfl⟩
    intro _ p hp
    cases hp
  | some p =>
    dsimp only
    by_cases hcond : (!st.errorRendered) = true ∧ (st.cursor : Int) ≤ p ∧ p < (stop : Int)
    · rw [if_pos hcond]
      obtain ⟨hrendB, hcp, hps⟩ := hcond
      have hrendF : st.errorRendered = false := by
        revert hrendB
        cases st.errorRendered <;> simp
      obtain ⟨hcl, hsegs, hrest⟩ := hok
      simp only [hrendF, Bool.false_eq_true, if_false] at hrest
      obtain ⟨hcc, hcnt, hcls⟩ := hrest
      have hp0 : 0 ≤ p := by omega
      have hcq : st.cursor ≤ p.toNat := by omega
      have hqs : p.toNat < stop := by omega
      refine ⟨⟨hsl, ?_, ?_⟩, rfl⟩
      · apply segAll_condFind text _ _ _ (p.toNat + 1) stop rfl
        apply segAll_pushErrorChar
        exact segAll_condFind text _ _ _ st.cursor p.toNat rfl hsegs
      · simp only [if_true]
        refine ⟨p, rfl, hp0, by omega, ?_, ?_⟩
        · rw [concat_condFind, concatSegs_pushErrorChar, concat_condFind, hcc,
            ← take_append_sl text st.cursor p.toNat hcq,
            substNbsp_take text p.toNat stop hqs]
        · rw [count_condFind, countError_pushErrorChar, count_condFind, hcnt]
    · rw [if_neg hcond]
      refine ⟨findAdvance_ok text (some p) stop _ st hok hsl (by omega) ?_, rfl⟩
      intro hrendF p' hp' hp0'
      obtain rfl : p = p' := by injection hp'
      obtain ⟨hcl, hsegs, hrest⟩ := hok
      simp only [hrendF, Bool.false_eq_true, if_false] at hrest
      obtain ⟨hcc, hcnt, hcls⟩ := hrest
      have hcp : (st.cursor : Int) ≤ p := hcls p rfl hp0'
      by_contra hlt
      exact hcond ⟨by simp [hrendF], hcp, by omega⟩

theorem tailStep_ok (text : List Char) (ep : Option Int) (st : RState)
    (hok : RendOK text ep st) :
    RendOK text ep (tailStep text ep st) ∧
      (tailStep text ep st).cursor = text.length := by
  unfold tailStep
  by_cases hc : st.cursor < text.length
  · rw [if_pos hc]
    cases ep with
    | none =>
      refine ⟨plainAdvance_ok text none text.length st hok (le_refl _) (le_of_lt hc) ?_, rfl⟩
      intro _ p hp
      cases hp
    | some p =>
      dsimp only
      by_cases hcond : (!st.errorRendered) = true ∧ (st.cursor : Int) ≤ p ∧ p < (text.length : Int)
      · rw [if_pos hcond]
        obtain ⟨hrendB, hcp, hps⟩ := hcond
        have hrendF : st.errorRendered = false := by
          revert hrendB
          cases st.errorRendered <;> simp
        obtain ⟨hcl, hsegs, hrest⟩ := hok
        simp only [hrendF, Bool.false_eq_true, if_false] at hrest
        obtain ⟨hcc, hcnt, hcls⟩ := hrest
        have hp0 : 0 ≤ p := by omega
        have hcq : st.cursor ≤ p.toNat := by omega
        have hqs : p.toNat < text.length := by omega
        refine ⟨⟨le_refl _, ?_, ?_⟩, rfl⟩
        · apply segAll_pushText text _ _ (p.toNat + 1) text.length rfl
          apply segAll_pushErrorChar
          exact segAll_pushText text _ _ st.cursor p.toNat rfl hsegs
        · simp only [if_true]
          refine ⟨p, rfl, hp0, by omega, ?_, ?_⟩
          · rw [concatSegs_pushText, concatSegs_pushErrorChar, concatSegs_pushText, hcc,
              ← take_append_sl text st.cursor p.toNat hcq,
              substNbsp_take text p.toNat text.length hqs]
          · rw [countError_pushText, countError_pushErrorChar, countError_pushText, hcnt]
      · rw [if_neg hcond]
        refine ⟨plainAdvance_ok text (some p) text.length st hok (le_refl _) (le_of_lt hc) ?_, rfl⟩
        intro hrendF p' hp' hp0'
        obtain rfl : p = p' := by injection hp'
        obtain ⟨hcl, hsegs, hrest⟩ := hok
        simp only [hrendF, Bool.false_eq_true, if_false] at hrest
        obtain ⟨hcc, hcnt, hcls⟩ := hrest
        have hcp : (st.cursor : Int) ≤ p := hcls p rfl hp0'
        by_contra hlt
        exact hcond ⟨by simp [hrendF], hcp, by omega⟩
  · rw [if_neg hc]
    have hcl := hok.1
    exact ⟨hok, by omega⟩

theorem renderLoop_ok (text : List Char) (ep : Option Int) (active : Int) :
    ∀ (ranges : List (Nat × Nat)) (idx : Nat) (st : RState),
      RendOK text ep st →
      (∀ r ∈ ranges, r.1 < r.2 ∧ r.2 ≤ text.length) →
      RendOK text ep (renderLoop text ep active ranges idx st) := by
  intro ranges
  induction ranges with
  | nil =>
    intro idx st hok _
    exact hok
  | cons r rest ih =>
    intro idx st hok hr
    obtain ⟨start, stop⟩ := r
    have hrr := hr (start, stop) (List.mem_cons_self _ _)
    have hrest : ∀ x ∈ rest, x.1 < x.2 ∧ x.2 ≤ text.length :=
      fun x hx => hr x (List.mem_cons_of_mem _ hx)
    unfold renderLoop
    by_cases hsc : stop ≤ st.cursor
    · rw [if_pos hsc]
      exact ih (idx + 1) st hok hrest
    · rw [if_neg hsc]
      have hstart' : max start st.cursor ≤ text.length := by
        have h1 := hok.1
        omega
    -- gap then match then recurse
      obtain ⟨hok1, hcur1⟩ := gapStep_ok text ep (max start st.cursor) st hok hstart'
      have hcur1' : (gapStep text ep (max start st.cursor) st).cursor = max start st.cursor := by
        omega
      obtain ⟨hok2, hcur2⟩ := matchStep_ok text ep active (max start st.cursor) stop idx
        (gapStep text ep (max start st.cursor) st) hok1 hcur1' (by omega) (by omega)
      exact ih (idx + 1) _ hok2 hrest

theorem mem_insertRange {x y : Nat × Nat} {l : List (Nat × Nat)} :
    y ∈ insertRange x l → y = x ∨ y ∈ l := by
  induction l with
  | nil =>
    intro h
    simp [insertRange] at h
    exact Or.inl h
  | cons z zs ih =>
    unfold insertRange
    split
    · intro h
      rcases List.mem_cons.mp h with h | h
      · exact Or.inr (List.mem_cons.mpr (Or.inl h))
      · rcases ih h with h | h
        · exact Or.inl h
        · exact Or.inr (List.mem_cons.mpr (Or.inr h))
    · intro h
      rcases List.mem_cons.mp h with h | h
      · exact Or.inl h
      · exact Or.inr h

theorem mem_sortRanges {y : Nat × Nat} {l : List (Nat × Nat)} :
    y ∈ sortRanges l → y ∈ l := by
  induction l with
  | nil =>
    intro h
    simp [sortRanges] at h
  | cons x xs ih =>
    intro h
    unfold sortRanges at h
    rcases mem_insertRange h with h | h
    · simp [h]
    · exact List.mem_cons.mpr (Or.inr (ih h))

theorem clampRanges_bound (textLen : Nat) (ranges : List (Int × Int)) :
    ∀ r ∈ clampRanges textLen ranges, r.1 < r.2 ∧ r.2 ≤ textLen := by
  intro r hr
  have hmem := mem_sortRanges hr
  rw [List.mem_filter] at hmem
  obtain ⟨hmap, hlt⟩ := hmem
  rw [List.mem_map] at hmap
  obtain ⟨x, _, hx⟩ := hmap
  constructor
  · simpa using hlt
  · subst hx
    unfold clampPair
    simp only
    omega

def concatSpec (text : List Char) (ep : Option Int) : List Char :=
  match ep with
  | some p => if 0 ≤ p ∧ p < (text.length : Int) then substNbsp text p.toNat else text
  | none => text

def errCountSpec (text : List Char) (ep : Option Int) : Nat :=
  match ep with
  | some p => if 0 ≤ p ∧ p < (text.length : Int) then 1 else 0
  | none => 0

theorem concatSegs_single_text (v : List Char) : concatSegs [Segment.text v] = v := by
  simp [concatSegs, Segment.value]

theorem renderWithHighlights_ok (text : List Char) (ep : Option Int)
    (ranges : List (Int × Int)) (ai : Int) :
    SegAll text (renderWithHighlights text ep ranges ai) ∧
    concatSegs (renderWithHighlights text ep ranges ai) = concatSpec text ep ∧
    countError (renderWithHighlights text ep ranges ai) = errCountSpec text ep := by
  have hinit : RendOK text ep ⟨[], 0, false⟩ := by
    refine ⟨Nat.zero_le _, ?_, ?_⟩
    · intro s hs
      cases hs
    · simp only [Bool.false_eq_true, if_false]
      refine ⟨rfl, rfl, ?_⟩
      intro p _ hp0
      simpa using hp0
  have hloop := renderLoop_ok text ep ai (clampRanges text.length ranges) 0 ⟨[], 0, false⟩
    hinit (clampRanges_bound _ _)
  obtain ⟨htail, hcur⟩ := tailStep_ok text ep _ hloop
  unfold renderWithHighlights
  dsimp only
  set stF := tailStep text ep
    (renderLoop text ep ai (clampRanges text.length ranges) 0 ⟨[], 0, false⟩) with hst
  obtain ⟨hlen, hsegAll, hrest⟩ := htail
  by_cases hsegs : stF.segs = []
  · rw [if_pos hsegs]
    have hrendF : stF.errorRendered = false := by
      by_contra hne
      have hrendT : stF.errorRendered = true := by
        revert hne
        cases stF.errorRendered <;> simp
      simp only [hrendT, if_true] at hrest
      obtain ⟨p, _, _, _, _, hcnt⟩ := hrest
      rw [hsegs] at hcnt
      simp [countError] at hcnt
    simp only [hrendF, Bool.false_eq_true, if_false] at hrest
    obtain ⟨hcc, hcnt, hcls⟩ := hrest
    cases ep with
    | none =>
      dsimp only
      refine ⟨?_, ?_, ?_⟩
      · intro s hs
        rcases List.mem_singleton.mp hs with rfl
        simp [SegOK, Segment.isError, Segment.value, List.infix_refl]
      · simp [concatSegs_single_text, concatSpec]
      · simp [countError, Segment.isError, errCountSpec]
    | some p =>
      dsimp only
      have hcondF : ¬(0 ≤ p ∧ p < (text.length : Int)) := by
        rintro ⟨h1, h2⟩
        have := hcls p rfl h1
        rw [hcur] at this
        omega
      rw [if_neg hcondF]
      refine ⟨?_, ?_, ?_⟩
      · intro s hs
        rcases List.mem_singleton.mp hs with rfl
        simp [SegOK, Segment.isError, Segment.value, List.infix_refl]
      · simp [concatSegs_single_text, concatSpec, if_neg hcondF]
      · simp [countError, Segment.isError, errCountSpec, if_neg hcondF]
  · rw [if_neg hsegs]
    by_cases hrend : stF.errorRendered = true
    · simp only [hrend, if_true] at hrest
      obtain ⟨p, hep, hp0, hq, hcc, hcnt⟩ := hrest
      subst hep
      have hcond : 0 ≤ p ∧ p < (text.length : Int) := by
        rw [hcur] at hq
        omega
      refine ⟨hsegAll, ?_, ?_⟩
      · rw [hcc, hcur, List.take_length, concatSpec, if_pos hcond]
      · rw [hcnt, errCountSpec, if_pos hcond]
    · have hrendF : stF.errorRendered = false := by
        revert hrend
        cases stF.errorRendered <;> simp
      simp only [hrendF, Bool.false_eq_true, if_false] at hrest
      obtain ⟨hcc, hcnt, hcls⟩ := hrest
      cases ep with
      | none =>
        refine ⟨hsegAll, ?_, ?_⟩
        · rw [hcc, hcur, List.take_length, concatSpec]
        · rw [hcnt, errCountSpec]
      | some p =>
        have hcondF : ¬(0 ≤ p ∧ p < (text.length : Int)) := by
          rintro ⟨h1, h2⟩
          have := hcls p rfl h1
          rw [hcur] at this
          omega
        refine ⟨hsegAll, ?_, ?_⟩
        · rw [hcc, hcur, List.take_length, concatSpec, if_neg hcondF]
        · rw [hcnt, errCountSpec, if_neg hcondF]

theorem substNbsp_length (text : List Char) (q : Nat) :
    (substNbsp text q).length = text.length := by
  unfold substNbsp errVal
  cases h : text.get? q with
  | some c =>
    have hq : q < text.length := by
      by_contra hge
      rw [List.get?_eq_none.mpr (by omega)] at h
      cases h
    simp [List.length_append, List.length_take, List.length_drop]
    omega
  | none =>
    have hq : text.length ≤ q := List.get?_eq_none.mp h
    simp [List.length_append, List.length_take, List.length_drop]
    omega

theorem concatSpec_length (text : List Char) (ep : Option Int) :
    (concatSpec text ep).length = text.length := by
  unfold concatSpec
  cases ep with
  | none => rfl
  | some p =>
    dsimp only
    by_cases hc : 0 ≤ p ∧ p < (text.length : Int)
    · rw [if_pos hc]
      exact substNbsp_length text p.toNat
    · rw [if_neg hc]

/-- Claim C1 counterexample: on buffer `" "` with error offset 0 and no
match ranges, the single emitted segment carries U+00A0, so the
concatenation of the emitted segments is not the buffer exactly. -/
theorem c1_counterexample :
    concatSegs (renderWithHighlights " ".toList (some 0) [] (-1)) ≠ " ".toList := by
  decide

/-- Claim C1 (amended): for every buffer, error offset, match range list
and active index, concatenating the Range Compositor's output segments
reproduces the buffer except that an in-range error offset's character is
replaced by U+00A0 when it is a space (`concatSpec`). -/
theorem c1_segment_concat (text : List Char) (ep : Option Int)
    (ranges : List (Int × Int)) (ai : Int) :
    concatSegs (renderWithHighlights text ep ranges ai) = concatSpec text ep :=
  (renderWithHighlights_ok text ep ranges ai).2.1

/-- Claim C2: for every buffer and every error offset with
`0 ≤ p < length`, regardless of the supplied match ranges (overlapping or
unsorted) and active index, exactly one emitted segment is tagged
`error`. -/
theorem c2_error_rendered_once (text : List Char) (p : Int)
    (ranges : List (Int × Int)) (ai : Int)
    (h0 : 0 ≤ p) (h1 : p < (text.length : Int)) :
    countError (renderWithHighlights text (some p) ranges ai) = 1 := by
  rw [(renderWithHighlights_ok text (some p) ranges ai).2.2, errCountSpec, if_pos ⟨h0, h1⟩]

/-- Witness for C2: buffer `"ab"`, error offset 1, overlapping unsorted
ranges. -/
theorem c2_error_rendered_once_witness :
    countError (renderWithHighlights "ab".toList (some 1) [(0, 2), (1, 5)] 0) = 1 :=
  c2_error_rendered_once "ab".toList 1 [(0, 2), (1, 5)] 0 (by decide) (by decide)

/-- Claim C9 counterexample: a match segment over buffer `" "` carries a
literal space, not a non-breaking space — only error segments are
NBSP-substituted. -/
theorem c9_counterexample :
    renderWithHighlights " ".toList none [(0, 1)] (-1) = [Segment.find [' '] false] ∧
    (Segment.find [' '] false).isFind = true ∧
    ' ' ∈ (Segment.find [' '] false).value := by
  decide

/-- Claim C9 (amended): in the Range Compositor's output every error
segment contains no literal space (spaces become U+00A0), while match and
plain segments carry contiguous substrings of the buffer unchanged. -/
theorem c9_nbsp_in_highlights (text : List Char) (ep : Option Int)
    (ranges : List (Int × Int)) (ai : Int) :
    ∀ s ∈ renderWithHighlights text ep ranges ai,
      (s.isError = true → ' ' ∉ s.value) ∧
      (s.isError = false → s.value <:+: text) := by
  intro s hs
  have h := (renderWithHighlights_ok text ep ranges ai).1 s hs
  unfold SegOK at h
  constructor
  · intro hT
    rw [if_pos hT] at h
    exact h
  · intro hF
    rw [if_neg (by simp [hF])] at h
    exact h

/-- Witness for C9 (amended) at the error segment rendered for buffer
`" "` with error offset 0. -/
theorem c9_nbsp_in_highlights_witness :
    ((Segment.error [' ']).isError = true →
      ' ' ∉ (Segment.error [' ']).value) ∧
    ((Segment.error [' ']).isError = false →
      (Segment.error [' ']).value <:+: [' ']) :=
  c9_nbsp_in_highlights [' '] (some 0) [] (-1) (Segment.error [' ']) (by decide)

/-! Ordering of the Match Engine output. -/

theorem isPrefixOf_length {l1 l2 : List Char} (h : l1.isPrefixOf l2 = true) :
    l1.length ≤ l2.length := by
  induction l1 generalizing l2 with
  | nil => simp
  | cons a as ih =>
    cases l2 with
    | nil => simp [List.isPrefixOf] at h
    | cons b bs =>
      simp only [List.isPrefixOf, Bool.and_eq_true] at h
      have := ih h.2
      simp only [List.length_cons]
      omega

theorem indexOfAux_spec (hay needle : List Char) :
    ∀ fuel j idx, indexOfAux hay needle j fuel = some idx →
      (j ≤ idx ∧ idx < j + fuel) ∧ needle.isPrefixOf (hay.drop idx) = true := by
  intro fuel
  induction fuel with
  | zero =>
    intro j idx h
    simp [indexOfAux] at h
  | succ fuel ih =>
    intro j idx h
    unfold indexOfAux at h
    split at h
    · cases h
      exact ⟨⟨le_refl _, by omega⟩, by assumption⟩
    · obtain ⟨⟨h1, h1b⟩, h2⟩ := ih (j + 1) idx h
      exact ⟨⟨by omega, by omega⟩, h2⟩

theorem indexOfFrom_spec (hay needle : List Char) (i idx : Nat)
    (h : indexOfFrom hay needle i = some idx) :
    i ≤ idx ∧ idx + needle.length ≤ hay.length := by
  obtain ⟨⟨h1, h1b⟩, h2⟩ := indexOfAux_spec hay needle _ i idx h
  refine ⟨h1, ?_⟩
  have := isPrefixOf_length h2
  rw [List.length_drop] at this
  omega

/-- The C3 ordering relation: strictly ascending starts and no overlap. -/
def matchRel (a b : FindMatch) : Prop := a.start < b.start ∧ a.stop ≤ b.start

instance : DecidableRel matchRel := fun a b => by
  unfold matchRel
  infer_instance

theorem pairwise_snoc {acc : List FindMatch} {m : FindMatch}
    (hacc : List.Pairwise matchRel acc) (hall : ∀ x ∈ acc, matchRel x m) :
    List.Pairwise matchRel (acc ++ [m]) := by
  rw [List.pairwise_append]
  exact ⟨hacc, List.pairwise_singleton _ _, fun a ha b hb => by
    rcases List.mem_singleton.mp hb with rfl
    exact hall a ha⟩

theorem literalLoop_pairwise (hay needle text : List Char) (ww : Bool)
    (hn : needle ≠ []) :
    ∀ fuel i acc res,
      (∀ m ∈ acc, m.stop ≤ i ∧ m.start < m.stop) →
      List.Pairwise matchRel acc →
      literalLoop hay needle text ww fuel i acc = some res →
      List.Pairwise matchRel res := by
  intro fuel
  induction fuel with
  | zero =>
    intro i acc res _ _ h
    simp [literalLoop] at h
  | succ fuel ih =>
    intro i acc res hinv hpw h
    unfold literalLoop at h
    cases hidx : indexOfFrom hay needle i with
    | none =>
      rw [hidx] at h
      cases h
      exact hpw
    | some idx =>
      rw [hidx] at h
      obtain ⟨hi, hlen⟩ := indexOfFrom_spec hay needle i idx hidx
      have hnl : 1 ≤ needle.length := by
        cases needle with
        | nil => exact absurd rfl hn
        | cons c cs => simp
      dsimp only at h
      have hnew : ∀ x ∈ acc, matchRel x ⟨idx, idx + needle.length⟩ := by
        intro x hx
        obtain ⟨hx1, hx2⟩ := hinv x hx
        unfold matchRel
        dsimp only
        omega
      have hinv' : ∀ m ∈ acc ++ [⟨idx, idx + needle.length⟩],
          m.stop ≤ idx + max needle.length 1 ∧ m.start < m.stop := by
        intro m hm
        rcases List.mem_append.mp hm with hm | hm
        · obtain ⟨h1, h2⟩ := hinv m hm
          exact ⟨by omega, h2⟩
        · rcases List.mem_singleton.mp hm with rfl
          dsimp only
          omega
      have hpw' := pairwise_snoc hpw hnew
      split at h
      · split at h
        · cases h
          exact hpw'
        · exact ih _ _ _ hinv' hpw' h
      · refine ih _ _ _ ?_ hpw h
        intro m hm
        obtain ⟨h1, h2⟩ := hinv m hm
        exact ⟨by omega, h2⟩

theorem regexLoop_pairwise (f : RegexExec) (hf : GoodExec f) (text : List Char)
    (ww : Bool) :
    ∀ fuel li acc res,
      (∀ m ∈ acc, m.stop ≤ li ∧ m.start < m.stop) →
      List.Pairwise matchRel acc →
      regexLoop f text ww fuel li acc = some res →
      List.Pairwise matchRel res := by
  intro fuel
  induction fuel with
  | zero =>
    intro li acc res _ _ h
    simp [regexLoop] at h
  | succ fuel ih =>
    intro li acc res hinv hpw h
    unfold regexLoop at h
    cases hexec : f text li with
    | none =>
      rw [hexec] at h
      cases h
      exact hpw
    | some r =>
      obtain ⟨idx, len⟩ := r
      rw [hexec] at h
      obtain ⟨hli, hlen⟩ := hf text li idx len hexec
      dsimp only at h
      by_cases hz : len = 0
      · rw [if_pos hz] at h
        split at h
        · refine ih _ _ _ ?_ hpw h
          intro m hm
          obtain ⟨h1, h2⟩ := hinv m hm
          exact ⟨by omega, h2⟩
        · cases h
          exact hpw
      · rw [if_neg hz] at h
        split at h
        · refine ih _ _ _ ?_ hpw h
          intro m hm
          obtain ⟨h1, h2⟩ := hinv m hm
          exact ⟨by omega, h2⟩
        · have hnew : ∀ x ∈ acc, matchRel x ⟨idx, idx + len⟩ := by
            intro x hx
            obtain ⟨hx1, hx2⟩ := hinv x hx
            unfold matchRel
            dsimp only
            omega
          have hinv' : ∀ m ∈ acc ++ [⟨idx, idx + len⟩],
              m.stop ≤ idx + len ∧ m.start < m.stop := by
            intro m hm
            rcases List.mem_append.mp hm with hm | hm
            · obtain ⟨h1, h2⟩ := hinv m hm
              exact ⟨by omega, h2⟩
            · rcases List.mem_singleton.mp hm with rfl
              dsimp only
              omega
          have hpw' := pairwise_snoc hpw hnew
          split at h
          · cases h
            exact hpw'
          · exact ih _ _ _ hinv' hpw' h

/-- Claim C3: for every buffer and every `FindOptions` — literal or regex
mode, any case/whole-word combination, with any `RegExp` engine meeting the
JS `exec` contract — the match list produced by `computeFindMatches` is
sorted strictly ascending by start and pairwise non-overlapping. -/
theorem c3_matches_sorted_disjoint (compile : RegexCompiler)
    (hc : GoodCompiler compile) (text : List Char) (o : FindOptions) (r : FindResult)
    (hr : computeFindMatches compile text o = some r) :
    List.Pairwise matchRel r.matchList := by
  unfold computeFindMatches at hr
  by_cases hq : o.query = []
  · rw [if_pos hq] at hr
    cases hr
    exact List.Pairwise.nil
  · rw [if_neg hq] at hr
    by_cases hre : o.regex = true
    · rw [if_pos hre] at hr
      cases hcmp : compile o.query o.matchCase with
      | error msg =>
        rw [hcmp] at hr
        cases hr
        exact List.Pairwise.nil
      | ok f =>
        rw [hcmp] at hr
        obtain ⟨ms, hms, hr2⟩ := Option.map_eq_some'.mp hr
        have hpw := regexLoop_pairwise f (hc _ _ _ hcmp) text o.wholeWord _ 0 [] ms
          (by simp) List.Pairwise.nil hms
        rw [← hr2]
        exact hpw
    · rw [if_neg hre] at hr
      dsimp only at hr
      by_cases hnd : (if o.matchCase then o.query else o.query.map lowerChar) = []
      · rw [if_pos hnd] at hr
        cases hr
        exact List.Pairwise.nil
      · rw [if_neg hnd] at hr
        obtain ⟨ms, hms, hr2⟩ := Option.map_eq_some'.mp hr
        have hpw := literalLoop_pairwise _ _ text o.wholeWord hnd _ 0 [] ms
          (by simp) List.Pairwise.nil hms
        rw [← hr2]
        exact hpw

/-- Witness for C3: literal search for `"a"` in `"aba"`. -/
theorem c3_witness :
    List.Pairwise matchRel
      (FindResult.mk [FindMatch.mk 0 1, FindMatch.mk 2 3] none).matchList :=
  c3_matches_sorted_disjoint failCompiler
    (fun _ _ _ h => Except.noConfusion h) "aba".toList
    ⟨"a".toList, false, false, false⟩ _ (by decide)

/-! Totality of the three core components (claim C7). -/

theorem nextNonWsAux_spec (text : List Char) (limit : Nat) :
    ∀ fuel i j, nextNonWsAux text limit i fuel = some j → i ≤ j ∧ j < limit := by
  intro fuel
  induction fuel with
  | zero =>
    intro i j h
    simp [nextNonWsAux] at h
  | succ fuel ih =>
    intro i j h
    unfold nextNonWsAux at h
    split at h
    · next hlim =>
      cases hg : text.get? i with
      | some c =>
        rw [hg] at h
        dsimp only at h
        by_cases hws : isJsonWs c = true
        · rw [if_pos hws] at h
          obtain ⟨h1, h2⟩ := ih (i + 1) j h
          exact ⟨by omega, h2⟩
        · rw [if_neg hws] at h
          cases h
          exact ⟨le_refl _, hlim⟩
      | none =>
        rw [hg] at h
        obtain ⟨h1, h2⟩ := ih (i + 1) j h
        exact ⟨by omega, h2⟩
    · cases h

theorem nextNonWhitespaceIndex_spec (text : List Char) (start limit j : Nat)
    (h : nextNonWhitespaceIndex text start limit = some j) :
    start ≤ j ∧ j < limit :=
  nextNonWsAux_spec text limit _ start j h

theorem fmtStep_next (raw : List Char) (ep : Option Int) (i : Nat) (ch : Char)
    (s : FmtState) :
    (fmtStep raw ep i ch s).2 = i + 1 ∨
      ∃ j, nextNonWhitespaceIndex raw (i + 1) raw.length = some j ∧
        (fmtStep raw ep i ch s).2 = j + 1 := by
  simp only [fmtStep]
  repeat' split
  all_goals first
    | (left; rfl)
    | (right; exact ⟨_, by assumption, rfl⟩)

theorem fmtLoop_total (raw : List Char) (ep : Option Int) :
    ∀ fuel i s, i ≤ raw.length → raw.length + 1 ≤ fuel + i →
      ∃ s', fmtLoop raw ep fuel i s = some s' := by
  intro fuel
  induction fuel with
  | zero =>
    intro i s hi hfuel
    omega
  | succ fuel ih =>
    intro i s hi hfuel
    unfold fmtLoop
    cases hg : raw.get? i with
    | none => exact ⟨s, rfl⟩
    | some ch =>
      have hilen : i < raw.length := by
        by_contra hge
        rw [List.get?_eq_none.mpr (by omega)] at hg
        cases hg
      rcases fmtStep_next raw ep i ch s with hnx | ⟨j, hj, hnx⟩
      · obtain ⟨s', hs'⟩ := ih (fmtStep raw ep i ch s).2 (fmtStep raw ep i ch s).1
          (by omega) (by omega)
        exact ⟨s', hs'⟩
      · obtain ⟨hj1, hj2⟩ := nextNonWhitespaceIndex_spec raw (i + 1) raw.length j hj
        obtain ⟨s', hs'⟩ := ih (fmtStep raw ep i ch s).2 (fmtStep raw ep i ch s).1
          (by omega) (by omega)
        exact ⟨s', hs'⟩

theorem formatJsonBestEffort_total (raw : List Char) (ep : Option Int) :
    ∃ r, formatJsonBestEffort raw ep = some r := by
  unfold formatJsonBestEffort
  obtain ⟨s', hs'⟩ := fmtLoop_total raw ep (raw.length + 1) 0
    ⟨[], 0, false, false, false, false⟩ (by omega) (by omega)
  rw [hs']
  exact ⟨_, rfl⟩

theorem literalLoop_total (hay needle text : List Char) (ww : Bool)
    (hn : needle ≠ []) :
    ∀ fuel i acc, i ≤ hay.length → hay.length + 1 ≤ fuel + i →
      ∃ res, literalLoop hay needle text ww fuel i acc = some res := by
  intro fuel
  induction fuel with
  | zero =>
    intro i acc hi hfuel
    omega
  | succ fuel ih =>
    intro i acc hi hfuel
    unfold literalLoop
    cases hidx : indexOfFrom hay needle i with
    | none => exact ⟨acc, rfl⟩
    | some idx =>
      obtain ⟨h1, h2⟩ := indexOfFrom_spec hay needle i idx hidx
      have hnl : 1 ≤ needle.length := by
        cases needle with
        | nil => exact absurd rfl hn
        | cons c cs => simp
      dsimp only
      split
      · split
        · exact ⟨_, rfl⟩
        · exact ih _ _ (by omega) (by omega)
      · exact ih _ _ (by omega) (by omega)

theorem regexLoop_total (f : RegexExec) (hf : GoodExec f) (text : List Char)
    (ww : Bool) :
    ∀ fuel li acc, li ≤ text.length → text.length + 1 ≤ fuel + li →
      ∃ res, regexLoop f text ww fuel li acc = some res := by
  intro fuel
  induction fuel with
  | zero =>
    intro li acc hli hfuel
    omega
  | succ fuel ih =>
    intro li acc hli hfuel
    unfold regexLoop
    cases hexec : f text li with
    | none => exact ⟨acc, rfl⟩
    | some r =>
      obtain ⟨idx, len⟩ := r
      obtain ⟨h1, h2⟩ := hf text li idx len hexec
      dsimp only
      by_cases hz : len = 0
      · rw [if_pos hz]
        split
        · exact ih _ _ (by omega) (by omega)
        · exact ⟨acc, rfl⟩
      · rw [if_neg hz]
        split
        · exact ih _ _ (by omega) (by omega)
        · split
          · exact ⟨_, rfl⟩
          · exact ih _ _ (by omega) (by omega)

theorem computeFindMatches_total (compile : RegexCompiler) (hc : GoodCompiler compile)
    (text : List Char) (o : FindOptions) :
    ∃ r, computeFindMatches compile text o = some r := by
  unfold computeFindMatches
  by_cases hq : o.query = []
  · rw [if_pos hq]
    exact ⟨_, rfl⟩
  · rw [if_neg hq]
    by_cases hre : o.regex = true
    · rw [if_pos hre]
      cases hcmp : compile o.query o.matchCase with
      | error msg => exact ⟨_, rfl⟩
      | ok f =>
        obtain ⟨res, hres⟩ := regexLoop_total f (hc _ _ _ hcmp) text o.wholeWord
          (text.length + 2) 0 [] (by omega) (by omega)
        dsimp only
        rw [hres]
        exact ⟨_, rfl⟩
    · rw [if_neg hre]
      dsimp only
      by_cases hnd : (if o.matchCase then o.query else o.query.map lowerChar) = []
      · rw [if_pos hnd]
        exact ⟨_, rfl⟩
      · rw [if_neg hnd]
        have hlen : (if o.matchCase then text else text.map lowerChar).length = text.length := by
          split <;> simp
        obtain ⟨res, hres⟩ := literalLoop_total _ _ text o.wholeWord hnd
          (text.length + 2) 0 [] (by omega) (by rw [hlen]; omega)
        rw [hres]
        exact ⟨_, rfl⟩

/-- Claim C7: the Match Engine, the Reformatter and the Range Compositor
are total — for every buffer (empty included), options, offsets and ranges
the fuel-modelled loops return a value (never `none`), and the Compositor
emits segments covering the whole buffer, never raising. -/
theorem c7_core_total (compile : RegexCompiler) (hc : GoodCompiler compile)
    (text findText raw : List Char) (o : FindOptions) (ep epr : Option Int)
    (ranges : List (Int × Int)) (ai : Int) :
    (∃ r, computeFindMatches compile findText o = some r) ∧
    (∃ r, formatJsonBestEffort raw ep = some r) ∧
    (concatSegs (renderWithHighlights text epr ranges ai)).length = text.length := by
  refine ⟨computeFindMatches_total compile hc findText o,
    formatJsonBestEffort_total raw ep, ?_⟩
  rw [(renderWithHighlights_ok text epr ranges ai).2.1]
  exact concatSpec_length text epr

/-- Witness for C7 at concrete inputs (whole-word literal search,
reformat of `"{  }"`, render with out-of-range and inverted ranges). -/
theorem c7_core_total_witness :
    (∃ r, computeFindMatches failCompiler "b b".toList
        ⟨"b".toList, true, true, false⟩ = some r) ∧
    (∃ r, formatJsonBestEffort "{  }".toList (some 1) = some r) ∧
    (concatSegs (renderWithHighlights "a b".toList (some 1) [(-3, 99), (2, 1)] 5)).length =
      "a b".toList.length :=
  c7_core_total failCompiler (fun _ _ _ h => Except.noConfusion h)
    "a b".toList "b b".toList "{  }".toList ⟨"b".toList, true, true, false⟩
    (some 1) (some 1) [(-3, 99), (2, 1)] 5

end JsonViewer
